import Mathlib

/-!
Verification development for the `pyscd` slowly-changing-dimension engine
(`src/pyscd/dimension.py`, class `SlowlyChangingDimension`).

The engine keeps a versioned dimension table in sync with incoming batches,
applying SCD Type-1 (in-place overwrite) and Type-2 (close-and-insert)
semantics.  This file gives a shallow embedding of the class: the persisted
table is a list of rows (association lists from column names to values), the
engine's hidden mutable state (`exists`, `__maxid`, `__currentindex`, the
three counters) is an explicit state record, and every method is translated
into a pure state-passing function.  The row fingerprint (`_compute_hash`,
SHA-1 of the concatenated canonical string forms of the attributes) is
implemented executably over `Nat` with explicit reduction modulo `2 ^ 32`.
-/

set_option maxRecDepth 100000

namespace PyScd

/-! ## SHA-1 over lists of byte values (`hashlib.sha1`) -/

/-- UTF-8 encoding of a string as a list of byte values (`str.encode()`). -/
def utf8Bytes (s : String) : List Nat :=
  (s.data.flatMap String.utf8EncodeChar).map UInt8.toNat

/-- The word modulus of SHA-1 arithmetic. -/
def w32 : Nat := 4294967296

/-- Rotate a 32-bit word left by `s` bits. -/
def rotl (s x : Nat) : Nat := (x * 2 ^ s + x / 2 ^ (32 - s)) % w32

/-- The SHA-1 round function for round `i`. -/
def sha1F (i b c d : Nat) : Nat :=
  if i < 20 then Nat.lor (Nat.land b c) (Nat.land (4294967295 - b) d)
  else if i < 40 then Nat.xor (Nat.xor b c) d
  else if i < 60 then Nat.lor (Nat.lor (Nat.land b c) (Nat.land b d)) (Nat.land c d)
  else Nat.xor (Nat.xor b c) d

/-- The SHA-1 round constant for round `i`. -/
def sha1K (i : Nat) : Nat :=
  if i < 20 then 1518500249
  else if i < 40 then 1859775393
  else if i < 60 then 2400959708
  else 3395469782

/-- Group a list of bytes into big-endian 32-bit words. -/
def toWords : List Nat → List Nat
  | b0 :: b1 :: b2 :: b3 :: rest =>
      (((b0 * 256 + b1) * 256 + b2) * 256 + b3) :: toWords rest
  | _ => []

/-- Split a padded message into `n` chunks of 64 bytes. -/
def chunks64 : Nat → List Nat → List (List Nat)
  | 0, _ => []
  | n + 1, l => l.take 64 :: chunks64 n (l.drop 64)

/-- Extend the 16 words of a block to the 80-word message schedule. -/
def sha1Extend (ws : Array Nat) : Array Nat :=
  (List.range 64).foldl (fun w _ =>
    let n := w.size
    w.push (rotl 1 (Nat.xor (Nat.xor (w.getD (n - 3) 0) (w.getD (n - 8) 0))
                            (Nat.xor (w.getD (n - 14) 0) (w.getD (n - 16) 0))))) ws

/-- One SHA-1 compression step over a 16-word block. -/
def sha1Compress (h : Nat × Nat × Nat × Nat × Nat) (block : List Nat) :
    Nat × Nat × Nat × Nat × Nat :=
  let w := sha1Extend block.toArray
  let step := fun (st : Nat × Nat × Nat × Nat × Nat) (i : Nat) =>
    let (a, b, c, d, e) := st
    let t := (rotl 5 a + sha1F i b c d + e + sha1K i + w.getD i 0) % w32
    (t, a, rotl 30 b, c, d)
  let r := (List.range 80).foldl step h
  ((h.1 + r.1) % w32, (h.2.1 + r.2.1) % w32, (h.2.2.1 + r.2.2.1) % w32,
    (h.2.2.2.1 + r.2.2.2.1) % w32, (h.2.2.2.2 + r.2.2.2.2) % w32)

/-- Big-endian 8-byte rendering of the message bit length. -/
def be8 (n : Nat) : List Nat :=
  [n / 2 ^ 56 % 256, n / 2 ^ 48 % 256, n / 2 ^ 40 % 256, n / 2 ^ 32 % 256,
   n / 2 ^ 24 % 256, n / 2 ^ 16 % 256, n / 2 ^ 8 % 256, n % 256]

/-- SHA-1 padding: `0x80`, zeros to 56 mod 64, then the bit length. -/
def sha1Pad (msg : List Nat) : List Nat :=
  msg ++ [128] ++ List.replicate ((119 - msg.length % 64) % 64) 0 ++ be8 (msg.length * 8)

/-- The five 32-bit words of the SHA-1 digest of a byte list. -/
def sha1Words (msg : List Nat) : List Nat :=
  let padded := sha1Pad msg
  let blocks := chunks64 (padded.length / 64) padded
  let h := blocks.foldl (fun h b => sha1Compress h (toWords b))
    (1732584193, 4023233417, 2562383102, 271733878, 3285377520)
  [h.1, h.2.1, h.2.2.1, h.2.2.2.1, h.2.2.2.2]

/-- Lowercase hexadecimal digit. -/
def hexDigit (n : Nat) : Char := if n < 10 then Char.ofNat (48 + n) else Char.ofNat (87 + n)

/-- A 32-bit word as 8 lowercase hex characters. -/
def hex8 (n : Nat) : List Char := (List.range 8).map (fun i => hexDigit (n / 2 ^ (4 * (7 - i)) % 16))

/-- SHA-1 digest of a byte list rendered as 40 lowercase hex characters
(`hashlib.sha1(...).hexdigest()`). -/
def sha1Hex (msg : List Nat) : String := ⟨(sha1Words msg).flatMap hex8⟩

/-! ## Row values and rows -/

/-- Scalar values stored in dimension rows: strings, 64-bit integers
(timestamps and surrogate keys are int64 nanoseconds / counters), booleans
and the null value. -/
inductive Value
  | vStr (s : String)
  | vInt (n : Int)
  | vBool (b : Bool)
  | vNone
  deriving DecidableEq, Repr

/-- Python `str(...)` on a row value: strings unchanged, integers in decimal,
booleans as `True` / `False`, null as `None`. -/
def pyStr : Value → String
  | .vStr s => s
  | .vInt n => toString n
  | .vBool b => if b then "True" else "False"
  | .vNone => "None"

/-- A row is an association list from column names to values (a pandas /
PyTables row restricted to the columns the engine reads and writes). -/
abbrev Attrs := List (String × Value)

/-- Read column `k` of a row (`row[k]`). -/
def getAtt (r : Attrs) (k : String) : Value :=
  match r.find? (fun p => p.1 == k) with
  | some p => p.2
  | none => Value.vNone

/-- Write column `k` of a row (`df[k] = v` restricted to one row): replace
the first binding of `k`, or append the column when absent. -/
def setAtt : Attrs → String → Value → Attrs
  | [], k, v => [(k, v)]
  | p :: r, k, v => if p.1 == k then (k, v) :: r else p :: setAtt r k v

/-- Does the row have a column named `k`. -/
def hasCol (r : Attrs) (k : String) : Bool := r.any (fun p => p.1 == k)

/-! ## Engine configuration (constructor arguments, `__init__`) -/

/-- The constructor arguments of `SlowlyChangingDimension` that the update
logic reads: the three attribute lists, the five control-column names and
the two timestamps (already parsed to int64 nanoseconds, lines 108-116). -/
structure Config where
  lookupatts : List String
  type1atts : List String
  type2atts : List String
  key : String
  fromatt : String
  toatt : String
  currentatt : String
  hashatt : String
  asof : Int
  maxto : Int
  deriving DecidableEq, Repr

/-- A configuration with the default control-column names (lines 19-24). -/
def Config.std (lk t1 t2 : List String) (asof maxto : Int) : Config :=
  ⟨lk, t1, t2, "scd_id", "scd_valid_from", "scd_valid_to", "scd_current", "scd_hash",
    asof, maxto⟩

/-- The fixed attribute order `lookupatts + type1atts + type2atts`
(line 100, `self.attributes`). -/
def Config.attributes (cfg : Config) : List String :=
  cfg.lookupatts ++ cfg.type1atts ++ cfg.type2atts

/-- The natural-key projection of a row: values of the lookup attributes. -/
def keyOf (cfg : Config) (r : Attrs) : List Value :=
  cfg.lookupatts.map (fun att => getAtt r att)

/-- Projection of a row onto `self.attributes`
(`modified[self.attributes]`, lines 199 and 211). -/
def projAttrs (cfg : Config) (r : Attrs) : Attrs :=
  cfg.attributes.map (fun att => (att, getAtt r att))

/-- The row fingerprint `_compute_hash` (lines 309-320): feed
`str(row[att]).encode()` for each attribute in the fixed order into SHA-1
and render the digest in hex. -/
def Config.compute_hash (cfg : Config) (row : Attrs) : String :=
  sha1Hex ((cfg.attributes.map (fun att => utf8Bytes (pyStr (getAtt row att)))).flatten)

/-- Concatenation of a list of strings without separator. -/
def concatAll : List String → String
  | [] => ""
  | s :: l => s ++ concatAll l

/-- The fingerprint as the specification words it: the SHA-1 digest, rendered
as 40 lowercase hex characters, of the UTF-8 encoding of the concatenation
(no separator) of each attribute's canonical string form taken in the order
`lookupatts ++ type1atts ++ type2atts`. -/
def fingerprintSpec (cfg : Config) (row : Attrs) : String :=
  sha1Hex (utf8Bytes (concatAll
    ((cfg.lookupatts ++ cfg.type1atts ++ cfg.type2atts).map
      (fun att => pyStr (getAtt row att)))))

/-! ## Engine state and methods -/

/-- The mutable state of a `SlowlyChangingDimension` instance together with
the persisted table it is connected to: `table` is the dimension stored in
the HDF file (in append order), `exists_` is `self.exists` (line 123, set
once at construction and never updated), `maxid` is `self.__maxid`,
`currentindex` is `self.__currentindex` (natural key and stored hash of the
rows that were current when the cache was last loaded), and the three
counters are `_new_count`, `_type1_modified_count`, `_type2_modified_count`
(lines 118-121). -/
structure EngineState where
  table : List Attrs
  exists_ : Bool
  maxid : Int
  currentindex : List (List Value × Value)
  new_count : Nat
  type1_modified_count : Nat
  type2_modified_count : Nat
  deriving DecidableEq, Repr

/-- An incoming pandas DataFrame: the list of index columns (empty for a
freshly built batch; `set_index` moves the lookup attributes there) and the
rows.  Rows keep all their column bindings whether indexed or not. -/
structure Df where
  indexCols : List String
  rows : List Attrs
  deriving DecidableEq, Repr

/-- Integer content of a value (used for `max(scd_id)`). -/
def valInt : Value → Int
  | .vInt n => n
  | _ => 0

/-- The persisted `max(scd_id)` read at construction (line 126).  Models
`pandas.Series.max()` for a non-empty table whose keys are non-negative
int64 values; construction over a present-but-empty table, where pandas
returns float `NaN`, is outside this embedding. -/
def maxIdOf (cfg : Config) (tb : List Attrs) : Int :=
  (tb.map (fun r => valInt (getAtt r cfg.key))).foldl max 0

/-- Rebuild of the current-state index, `_get_current_indexes`
(lines 325-333): select the rows with `currentatt == True` and keep, per
row, the natural key and the stored hash. -/
def get_current_indexes (cfg : Config) (table : List Attrs) : List (List Value × Value) :=
  (table.filter (fun r => getAtt r cfg.currentatt == Value.vBool true)).map
    (fun r => (keyOf cfg r, getAtt r cfg.hashatt))

/-- Engine construction (`__init__`, lines 123-130): when the dimension is
absent from the store, `exists` is false, `__maxid` is 0 and the index is
empty; when present, `__maxid` is the persisted maximum key and the index is
loaded from the current rows.  Counters start at 0. -/
def construct (cfg : Config) (persisted : Option (List Attrs)) : EngineState :=
  match persisted with
  | none => ⟨[], false, 0, [], 0, 0, 0⟩
  | some tb => ⟨tb, true, maxIdOf cfg tb, get_current_indexes cfg tb, 0, 0, 0⟩

/-- Fill the SCD control columns of one inserted row (`insert`,
lines 216-223): the surrogate key from the allocator, `fromatt := asof`,
`toatt := maxto`, `currentatt := True`, and finally the hash computed from
the row after those assignments. -/
def fillRow (cfg : Config) (id : Int) (a : Attrs) : Attrs :=
  let a1 := setAtt a cfg.key (Value.vInt id)
  let a2 := setAtt a1 cfg.fromatt (Value.vInt cfg.asof)
  let a3 := setAtt a2 cfg.toatt (Value.vInt cfg.maxto)
  let a4 := setAtt a3 cfg.currentatt (Value.vBool true)
  setAtt a4 cfg.hashatt (Value.vStr (cfg.compute_hash a4))

/-- The method `insert` (lines 213-225): allocate pre-incremented surrogate
keys row by row (`_getnextid`, lines 305-307), fill the control columns and
append every row to the persisted table.  Returns the new state and the
mutated DataFrame rows (the columns are added to the object the caller
passed in). -/
def insert (cfg : Config) (s : EngineState) (rows : List Attrs) :
    EngineState × List Attrs :=
  let filled := rows.enum.map (fun p => fillRow cfg (s.maxid + 1 + p.1) p.2)
  ({ s with maxid := s.maxid + rows.length, table := s.table ++ filled }, filled)

/-- The merge of the hashed batch with the current-state index
(lines 192-196 and 204-208): inner join on the natural key, keep the rows
whose incoming hash differs from the stored one, and project onto
`self.attributes`. -/
def mergeChanged (cfg : Config) (rows : List Attrs)
    (index : List (List Value × Value)) : List Attrs :=
  (((rows.map (fun a =>
      (index.filter (fun kh => decide (kh.1 = keyOf cfg a))).map (fun kh => (a, kh.2)))).flatten).filter
    (fun p => !(decide (getAtt p.1 cfg.hashatt = p.2)))).map (fun p => projAttrs cfg p.1)

/-- Effect of one iteration of the `__perform_type1_updates` loop
(lines 237-257) on one stored row: when the row matches the natural key of
the incoming row `m` (the `allkeyslookupcondition` coordinates, regardless
of currency), overwrite the Type-1 columns with `m`'s values and overwrite
the hash with the fingerprint computed from `m`'s attribute dict. -/
def applyT1Row (cfg : Config) (m : Attrs) (r : Attrs) : Attrs :=
  if keyOf cfg r = keyOf cfg m then
    setAtt (cfg.type1atts.foldl (fun acc att => setAtt acc att (getAtt m att)) r)
      cfg.hashatt (Value.vStr (cfg.compute_hash m))
  else r

/-- The method `__perform_type1_updates` (lines 227-263): for each modified
row in order, rewrite all stored versions of its natural key in place, then
reload the current-state index (`_load_cache`, line 263). -/
def perform_type1_updates (cfg : Config) (s : EngineState) (modified : List Attrs) :
    EngineState :=
  let table1 := modified.foldl (fun tb m => tb.map (applyT1Row cfg m)) s.table
  { s with table := table1, currentindex := get_current_indexes cfg table1 }

/-- Effect of one iteration of the `__track_type2_history` loop
(lines 279-295) on one stored row: the rows matching the
`currentkeylookupcondition` (natural key and `currentatt == True`) are
expired: `toatt := asof` and `currentatt := False`. -/
def retireRow (cfg : Config) (m : Attrs) (r : Attrs) : Attrs :=
  if keyOf cfg r = keyOf cfg m ∧ getAtt r cfg.currentatt = Value.vBool true then
    setAtt (setAtt r cfg.toatt (Value.vInt cfg.asof)) cfg.currentatt (Value.vBool false)
  else r

/-- The method `__track_type2_history` (lines 265-302): expire the current
version of each modified row's natural key, then `insert` the modified rows
as new versions.  The current-state index is not reloaded. -/
def track_type2_history (cfg : Config) (s : EngineState) (modified : List Attrs) :
    EngineState :=
  let table1 := modified.foldl (fun tb m => tb.map (retireRow cfg m)) s.table
  (insert cfg { s with table := table1 } modified).1

/-- The method `update` (lines 167-211).  When the dimension does not exist
(per the construction-time flag), insert a copy of the whole batch.
Otherwise: add the hash column to the caller's DataFrame and set its index
to the lookup attributes (in-place, lines 176-181); insert the rows whose
key is absent from the preloaded index; when `type1atts` is non-empty, run
the Type-1 path on the rows whose key is present but whose hash differs;
when `type2atts` is non-empty, recompute that merge (against the possibly
reloaded index) and run the Type-2 path.  Returns the new state and the
caller-visible DataFrame after the call. -/
def update (cfg : Config) (s : EngineState) (df : Df) : EngineState × Df :=
  if s.exists_ = false then
    ((insert cfg s df.rows).1, df)
  else
    let rows1 := df.rows.map (fun a => setAtt a cfg.hashatt (Value.vStr (cfg.compute_hash a)))
    let df1 : Df := ⟨cfg.lookupatts, rows1⟩
    let idxKeys := s.currentindex.map Prod.fst
    let newRows := rows1.filter (fun a => !(decide (keyOf cfg a ∈ idxKeys)))
    let s1 := if newRows.isEmpty then s else (insert cfg s newRows).1
    let s2 :=
      if cfg.type1atts.isEmpty then s1
      else
        let m1 := mergeChanged cfg rows1 s1.currentindex
        if m1.isEmpty then s1 else perform_type1_updates cfg s1 m1
    let s3 :=
      if cfg.type2atts.isEmpty then s2
      else
        let m2 := mergeChanged cfg rows1 s2.currentindex
        if m2.isEmpty then s2 else track_type2_history cfg s2 m2
    (s3, df1)

/-- The method `lookup` (lines 162-165): its body is `return None`. -/
def lookup (s : EngineState) (tablerow : Attrs) : Option Attrs := none

/-- Sanity conditions on a configuration that every real dimension schema
satisfies: the five control-column names are distinct from the data
attributes and from each other, and Type-1 attributes are not lookup
attributes (the natural key is immutable). -/
abbrev ConfigSane (cfg : Config) : Prop :=
  cfg.key ∉ cfg.attributes ∧ cfg.fromatt ∉ cfg.attributes ∧ cfg.toatt ∉ cfg.attributes ∧
  cfg.currentatt ∉ cfg.attributes ∧ cfg.hashatt ∉ cfg.attributes ∧
  ([cfg.key, cfg.fromatt, cfg.toatt, cfg.currentatt, cfg.hashatt] : List String).Nodup ∧
  ∀ a ∈ cfg.type1atts, a ∉ cfg.lookupatts

/-! ## Association-list and fingerprint lemmas -/

theorem getAtt_cons (k0 : String) (v0 : Value) (r : Attrs) (k : String) :
    getAtt ((k0, v0) :: r) k = if k0 = k then v0 else getAtt r k := by
  by_cases h : k0 = k
  · subst h
    simp [getAtt, List.find?]
  · have hb : (k0 == k) = false := beq_eq_false_iff_ne.2 h
    simp [getAtt, List.find?, hb, h]

theorem setAtt_cons (p : String × Value) (r : Attrs) (k : String) (v : Value) :
    setAtt (p :: r) k v = if p.1 = k then (k, v) :: r else p :: setAtt r k v := by
  by_cases h : p.1 = k
  · simp [setAtt, h]
  · have hb : (p.1 == k) = false := beq_eq_false_iff_ne.2 h
    simp [setAtt, hb, h]

theorem getAtt_setAtt_same (r : Attrs) (k : String) (v : Value) :
    getAtt (setAtt r k v) k = v := by
  induction r with
  | nil => simp [setAtt, getAtt_cons]
  | cons p r ih =>
      rw [setAtt_cons]
      by_cases h : p.1 = k
      · simp [h, getAtt_cons]
      · rw [if_neg h]
        rcases p with ⟨pk, pv⟩
        rw [getAtt_cons, if_neg h, ih]

theorem getAtt_setAtt_ne (r : Attrs) (k ka : String) (v : Value) (h : ka ≠ k) :
    getAtt (setAtt r k v) ka = getAtt r ka := by
  induction r with
  | nil => simp [setAtt, getAtt_cons, getAtt, (Ne.symm h)]
  | cons p r ih =>
      rw [setAtt_cons]
      rcases p with ⟨pk, pv⟩
      by_cases hp : pk = k
      · simp only at hp
        rw [if_pos hp, getAtt_cons, getAtt_cons, if_neg (Ne.symm h), hp,
          if_neg (Ne.symm h)]
      · simp only at hp
        rw [if_neg hp, getAtt_cons, getAtt_cons]
        by_cases hk : pk = ka
        · rw [if_pos hk, if_pos hk]
        · rw [if_neg hk, if_neg hk, ih]

theorem hasCol_setAtt_self (r : Attrs) (k : String) (v : Value) :
    hasCol (setAtt r k v) k = true := by
  induction r with
  | nil => simp [setAtt, hasCol]
  | cons p r ih =>
      rw [setAtt_cons]
      by_cases h : p.1 = k
      · simp [h, hasCol]
      · rw [if_neg h]
        simp only [hasCol, List.any_cons, Bool.or_eq_true] at ih ⊢
        exact Or.inr ih

theorem hasCol_setAtt_of (r : Attrs) (k ka : String) (v : Value)
    (h : hasCol r ka = true) : hasCol (setAtt r k v) ka = true := by
  induction r with
  | nil => simp [hasCol] at h
  | cons p r ih =>
      rw [setAtt_cons]
      simp only [hasCol, List.any_cons, Bool.or_eq_true] at h
      by_cases hp : p.1 = k
      · rw [if_pos hp]
        simp only [hasCol, List.any_cons, Bool.or_eq_true]
        rcases h with h | h
        · left
          have : p.1 = ka := by simpa using h
          simp [← hp ▸ this]
        · right
          exact h
      · rw [if_neg hp]
        simp only [hasCol, List.any_cons, Bool.or_eq_true]
        rcases h with h | h
        · exact Or.inl h
        · exact Or.inr (ih h)

theorem getAtt_foldl_setAtt_not_mem (names : List String) (f : String → Value)
    (r : Attrs) (att : String) (h : att ∉ names) :
    getAtt (names.foldl (fun acc n => setAtt acc n (f n)) r) att = getAtt r att := by
  induction names generalizing r with
  | nil => rfl
  | cons n rest ih =>
      simp only [List.foldl_cons]
      rw [ih _ (fun hm => h (List.mem_cons_of_mem _ hm)),
        getAtt_setAtt_ne _ _ _ _ (fun he => h (by rw [he]; exact List.mem_cons_self _ _))]

theorem getAtt_foldl_setAtt_mem (names : List String) (f : String → Value)
    (r : Attrs) (att : String) (h : att ∈ names) :
    getAtt (names.foldl (fun acc n => setAtt acc n (f n)) r) att = f att := by
  induction names generalizing r with
  | nil => cases h
  | cons n rest ih =>
      simp only [List.foldl_cons]
      by_cases hr : att ∈ rest
      · exact ih _ hr
      · have hn : att = n := by
          rcases List.mem_cons.1 h with h1 | h1
          · exact h1
          · exact absurd h1 hr
        rw [getAtt_foldl_setAtt_not_mem _ _ _ _ hr, hn, getAtt_setAtt_same]

theorem keyOf_setAtt (cfg : Config) (r : Attrs) (k : String) (v : Value)
    (h : k ∉ cfg.lookupatts) : keyOf cfg (setAtt r k v) = keyOf cfg r := by
  unfold keyOf
  exact List.map_congr_left (fun att ha =>
    getAtt_setAtt_ne _ _ _ _ (fun he => h (he ▸ ha)))

theorem getAtt_mapPairs (names : List String) (r : Attrs) (att : String)
    (h : att ∈ names) :
    getAtt (names.map (fun a => (a, getAtt r a))) att = getAtt r att := by
  induction names with
  | nil => cases h
  | cons a rest ih =>
      rw [List.map_cons, getAtt_cons]
      by_cases ha : a = att
      · simp [ha]
      · rcases List.mem_cons.1 h with h1 | h1
        · exact absurd h1.symm ha
        · simp [ha, ih h1]

theorem getAtt_projAttrs (cfg : Config) (r : Attrs) (att : String)
    (h : att ∈ cfg.attributes) : getAtt (projAttrs cfg r) att = getAtt r att :=
  getAtt_mapPairs _ _ _ h

theorem compute_hash_congr (cfg : Config) (r1 r2 : Attrs)
    (h : ∀ att ∈ cfg.attributes, getAtt r1 att = getAtt r2 att) :
    cfg.compute_hash r1 = cfg.compute_hash r2 := by
  unfold Config.compute_hash
  congr 1
  congr 1
  exact List.map_congr_left (fun att ha => by rw [h att ha])

theorem compute_hash_projAttrs (cfg : Config) (r : Attrs) :
    cfg.compute_hash (projAttrs cfg r) = cfg.compute_hash r :=
  compute_hash_congr _ _ _ (fun att ha => getAtt_projAttrs _ _ _ ha)

theorem compute_hash_setAtt (cfg : Config) (r : Attrs) (k : String) (v : Value)
    (h : k ∉ cfg.attributes) :
    cfg.compute_hash (setAtt r k v) = cfg.compute_hash r :=
  compute_hash_congr _ _ _ (fun att ha =>
    getAtt_setAtt_ne _ _ _ _ (fun he => h (he ▸ ha)))

theorem keyOf_projAttrs (cfg : Config) (r : Attrs) :
    keyOf cfg (projAttrs cfg r) = keyOf cfg r :=
  List.map_congr_left (fun att ha =>
    getAtt_projAttrs _ _ _ (by simp [Config.attributes, ha]))


/-! ## The fingerprint (claim C6) -/

theorem utf8Bytes_append (a b : String) :
    utf8Bytes (a ++ b) = utf8Bytes a ++ utf8Bytes b := by
  simp [utf8Bytes, String.data_append, List.flatMap_append]

theorem utf8Bytes_concatAll (l : List String) :
    utf8Bytes (concatAll l) = (l.map utf8Bytes).flatten := by
  induction l with
  | nil => rfl
  | cons s rest ih => simp [concatAll, utf8Bytes_append, ih]

theorem sha1Hex_length (msg : List Nat) : (sha1Hex msg).length = 40 := by
  simp [sha1Hex, sha1Words, hex8, String.length]

/-- Validation of the SHA-1 implementation against the standard `abc`
test vector. -/
theorem sha1_test_vector :
    sha1Hex (utf8Bytes "abc") = "a9993e364706816aba3e25717850c26c9cd0d89d" := by decide

/-- C6: for every row, the fingerprint computed by `_compute_hash` is the
SHA-1 digest, rendered as 40 lowercase hex characters, of the concatenation
without separator of each attribute's canonical string form taken in the
fixed order `lookupatts ++ type1atts ++ type2atts`, with strings encoded as
UTF-8, absent values rendered as the literal `None` string and booleans as
`True` / `False`. -/
theorem compute_hash_is_spec_fingerprint (cfg : Config) (row : Attrs) :
    cfg.compute_hash row = fingerprintSpec cfg row
    ∧ (cfg.compute_hash row).length = 40
    ∧ pyStr Value.vNone = "None"
    ∧ pyStr (Value.vBool true) = "True"
    ∧ pyStr (Value.vBool false) = "False" := by
  refine ⟨?_, sha1Hex_length _, rfl, rfl, rfl⟩
  unfold Config.compute_hash fingerprintSpec
  rw [utf8Bytes_concatAll, List.map_map]
  rfl


/-! ## Row-transformation lemmas -/

theorem keyOf_fillRow (cfg : Config) (id : Int) (a : Attrs)
    (hk : cfg.key ∉ cfg.lookupatts) (hf : cfg.fromatt ∉ cfg.lookupatts)
    (ht : cfg.toatt ∉ cfg.lookupatts) (hc : cfg.currentatt ∉ cfg.lookupatts)
    (hh : cfg.hashatt ∉ cfg.lookupatts) :
    keyOf cfg (fillRow cfg id a) = keyOf cfg a := by
  unfold fillRow
  rw [keyOf_setAtt _ _ _ _ hh, keyOf_setAtt _ _ _ _ hc, keyOf_setAtt _ _ _ _ ht,
    keyOf_setAtt _ _ _ _ hf, keyOf_setAtt _ _ _ _ hk]

theorem getAtt_fillRow_key (cfg : Config) (id : Int) (a : Attrs)
    (hf : cfg.fromatt ≠ cfg.key) (ht : cfg.toatt ≠ cfg.key)
    (hc : cfg.currentatt ≠ cfg.key) (hh : cfg.hashatt ≠ cfg.key) :
    getAtt (fillRow cfg id a) cfg.key = Value.vInt id := by
  unfold fillRow
  dsimp only
  rw [getAtt_setAtt_ne _ _ _ _ (Ne.symm hh), getAtt_setAtt_ne _ _ _ _ (Ne.symm hc),
    getAtt_setAtt_ne _ _ _ _ (Ne.symm ht), getAtt_setAtt_ne _ _ _ _ (Ne.symm hf),
    getAtt_setAtt_same]

theorem getAtt_fillRow_current (cfg : Config) (id : Int) (a : Attrs)
    (hh : cfg.hashatt ≠ cfg.currentatt) :
    getAtt (fillRow cfg id a) cfg.currentatt = Value.vBool true := by
  unfold fillRow
  dsimp only
  rw [getAtt_setAtt_ne _ _ _ _ (Ne.symm hh), getAtt_setAtt_same]

theorem getAtt_fillRow_hash (cfg : Config) (id : Int) (a : Attrs)
    (hk : cfg.key ∉ cfg.attributes) (hf : cfg.fromatt ∉ cfg.attributes)
    (ht : cfg.toatt ∉ cfg.attributes) (hc : cfg.currentatt ∉ cfg.attributes) :
    getAtt (fillRow cfg id a) cfg.hashatt = Value.vStr (cfg.compute_hash a) := by
  unfold fillRow
  dsimp only
  rw [getAtt_setAtt_same, compute_hash_setAtt _ _ _ _ hc, compute_hash_setAtt _ _ _ _ ht,
    compute_hash_setAtt _ _ _ _ hf, compute_hash_setAtt _ _ _ _ hk]

theorem keyOf_applyT1Row (cfg : Config) (m r : Attrs)
    (h1 : ∀ att ∈ cfg.type1atts, att ∉ cfg.lookupatts)
    (hh : cfg.hashatt ∉ cfg.lookupatts) :
    keyOf cfg (applyT1Row cfg m r) = keyOf cfg r := by
  unfold applyT1Row
  by_cases h : keyOf cfg r = keyOf cfg m
  · rw [if_pos h, keyOf_setAtt _ _ _ _ hh]
    exact List.map_congr_left (fun att ha =>
      getAtt_foldl_setAtt_not_mem _ _ _ _ (fun hm => h1 att hm ha))
  · rw [if_neg h]

theorem getAtt_applyT1Row_of_ne (cfg : Config) (m r : Attrs) (att : String)
    (h1 : att ∉ cfg.type1atts) (hh : att ≠ cfg.hashatt) :
    getAtt (applyT1Row cfg m r) att = getAtt r att := by
  unfold applyT1Row
  by_cases h : keyOf cfg r = keyOf cfg m
  · rw [if_pos h, getAtt_setAtt_ne _ _ _ _ hh, getAtt_foldl_setAtt_not_mem _ _ _ _ h1]
  · rw [if_neg h]

theorem getAtt_applyT1Row_hash_match (cfg : Config) (m r : Attrs)
    (h : keyOf cfg r = keyOf cfg m) :
    getAtt (applyT1Row cfg m r) cfg.hashatt = Value.vStr (cfg.compute_hash m) := by
  unfold applyT1Row
  rw [if_pos h, getAtt_setAtt_same]

theorem keyOf_retireRow (cfg : Config) (m r : Attrs)
    (ht : cfg.toatt ∉ cfg.lookupatts) (hc : cfg.currentatt ∉ cfg.lookupatts) :
    keyOf cfg (retireRow cfg m r) = keyOf cfg r := by
  unfold retireRow
  by_cases h : keyOf cfg r = keyOf cfg m ∧ getAtt r cfg.currentatt = Value.vBool true
  · rw [if_pos h, keyOf_setAtt _ _ _ _ hc, keyOf_setAtt _ _ _ _ ht]
  · rw [if_neg h]

theorem getAtt_retireRow_of_ne (cfg : Config) (m r : Attrs) (att : String)
    (ht : att ≠ cfg.toatt) (hc : att ≠ cfg.currentatt) :
    getAtt (retireRow cfg m r) att = getAtt r att := by
  unfold retireRow
  by_cases h : keyOf cfg r = keyOf cfg m ∧ getAtt r cfg.currentatt = Value.vBool true
  · rw [if_pos h, getAtt_setAtt_ne _ _ _ _ hc, getAtt_setAtt_ne _ _ _ _ ht]
  · rw [if_neg h]

/-! ## State-shape lemmas for the methods -/

theorem insert_table (cfg : Config) (s : EngineState) (rows : List Attrs) :
    (insert cfg s rows).1.table = s.table ++ (insert cfg s rows).2 := rfl

theorem insert_rows_eq (cfg : Config) (s : EngineState) (rows : List Attrs) :
    (insert cfg s rows).2 = rows.enum.map (fun p => fillRow cfg (s.maxid + 1 + p.1) p.2) := rfl

theorem insert_maxid (cfg : Config) (s : EngineState) (rows : List Attrs) :
    (insert cfg s rows).1.maxid = s.maxid + rows.length := rfl

theorem insert_keeps_index (cfg : Config) (s : EngineState) (rows : List Attrs) :
    (insert cfg s rows).1.currentindex = s.currentindex := rfl

theorem insert_keeps_exists (cfg : Config) (s : EngineState) (rows : List Attrs) :
    (insert cfg s rows).1.exists_ = s.exists_ := rfl

theorem insert_table_length (cfg : Config) (s : EngineState) (rows : List Attrs) :
    (insert cfg s rows).1.table.length = s.table.length + rows.length := by
  rw [insert_table, List.length_append, insert_rows_eq, List.length_map, List.enum_length]

theorem foldl_map_comm {α β : Type} (g : β → α → α) (ms : List β) (tb : List α) :
    ms.foldl (fun t m => t.map (g m)) tb
      = tb.map (fun r => ms.foldl (fun r m => g m r) r) := by
  induction ms generalizing tb with
  | nil => simp
  | cons m rest ih =>
      simp only [List.foldl_cons]
      rw [ih (tb.map (g m)), List.map_map]
      rfl

theorem perform_type1_table (cfg : Config) (s : EngineState) (modified : List Attrs) :
    (perform_type1_updates cfg s modified).table
      = s.table.map (fun r => modified.foldl (fun r m => applyT1Row cfg m r) r) := by
  unfold perform_type1_updates
  exact foldl_map_comm _ _ _

theorem perform_type1_table_length (cfg : Config) (s : EngineState) (modified : List Attrs) :
    (perform_type1_updates cfg s modified).table.length = s.table.length := by
  rw [perform_type1_table, List.length_map]

theorem perform_type1_maxid (cfg : Config) (s : EngineState) (modified : List Attrs) :
    (perform_type1_updates cfg s modified).maxid = s.maxid := rfl

theorem perform_type1_index (cfg : Config) (s : EngineState) (modified : List Attrs) :
    (perform_type1_updates cfg s modified).currentindex
      = get_current_indexes cfg (perform_type1_updates cfg s modified).table := rfl

theorem track_type2_table (cfg : Config) (s : EngineState) (modified : List Attrs) :
    (track_type2_history cfg s modified).table
      = s.table.map (fun r => modified.foldl (fun r m => retireRow cfg m r) r)
        ++ (insert cfg { s with
              table := modified.foldl (fun tb m => tb.map (retireRow cfg m)) s.table }
            modified).2 := by
  unfold track_type2_history
  rw [insert_table]
  rw [foldl_map_comm]

theorem track_type2_table_length (cfg : Config) (s : EngineState) (modified : List Attrs) :
    (track_type2_history cfg s modified).table.length
      = s.table.length + modified.length := by
  rw [track_type2_table, List.length_append, List.length_map, insert_rows_eq,
    List.length_map, List.enum_length]

theorem track_type2_maxid (cfg : Config) (s : EngineState) (modified : List Attrs) :
    (track_type2_history cfg s modified).maxid = s.maxid + modified.length := rfl

theorem track_type2_keeps_index (cfg : Config) (s : EngineState) (modified : List Attrs) :
    (track_type2_history cfg s modified).currentindex = s.currentindex := rfl


/-! ## Concrete scenarios

`cfgOrders` and `orderRow` reproduce the first test of the repository
(`tests/test_dimension.py`, `test_import_new_data_fill_scd_columns`):
lookup on `order`, Type-2 tracking of `line`, `status`, `currency`,
`asof = 2015-10-23` and `maxto = 2199-12-31` in int64 nanoseconds. -/

def cfgOrders : Config :=
  Config.std ["order"] [] ["line", "status", "currency"]
    1445558400000000000 7258032000000000000

def orderRow : Attrs :=
  [("order", .vStr "1"), ("line", .vInt 10),
   ("status", .vStr "Not Delivered"), ("currency", .vStr "USD")]

def dfOrders : Df := ⟨[], [orderRow]⟩

/-- The first load of `orderRow` into a store that does not yet hold the
dimension produces exactly the row the repository's first test expects,
digest `39510ad9…` included. -/
theorem first_load_expected_row :
    (update cfgOrders (construct cfgOrders none) dfOrders).1.table
      = [[("order", .vStr "1"), ("line", .vInt 10),
          ("status", .vStr "Not Delivered"), ("currency", .vStr "USD"),
          ("scd_id", .vInt 1), ("scd_valid_from", .vInt 1445558400000000000),
          ("scd_valid_to", .vInt 7258032000000000000),
          ("scd_current", .vBool true),
          ("scd_hash", .vStr "39510ad9dc54f9e05bb3cf9db33ab1a1b0b66114")]] := by
  decide

/-- C1: the claim fails on the code.  `self.exists` is set once at
construction (line 123) and never updated, and `insert` does not reload the
current-state index, so calling `update` twice with the same batch on the
same engine inserts the batch twice: after the second call the table holds
two rows instead of one. -/
theorem update_twice_reinserts_batch :
    (update cfgOrders (construct cfgOrders none) dfOrders).1.table.length = 1
    ∧ (update cfgOrders
        (update cfgOrders (construct cfgOrders none) dfOrders).1 dfOrders).1.table.length = 2
    ∧ (update cfgOrders (construct cfgOrders none) dfOrders).1.exists_ = false := by
  decide

/-- C3: the claim fails on the code.  The three counters are initialized in
`__init__` (lines 118-121) and exposed as properties (lines 150-160) but no
code path ever increments them: `update` leaves all three counters exactly
as it found them, whatever the batch classified. -/
theorem update_never_increments_counters (cfg : Config) (s : EngineState) (df : Df) :
    (update cfg s df).1.new_count = s.new_count
    ∧ (update cfg s df).1.type1_modified_count = s.type1_modified_count
    ∧ (update cfg s df).1.type2_modified_count = s.type2_modified_count := by
  unfold update
  split
  · exact ⟨rfl, rfl, rfl⟩
  · dsimp only
    repeat' split
    all_goals exact ⟨rfl, rfl, rfl⟩

/-- C4: the claim fails on the code.  `insert` (lines 216-223) fills only
`scd_id`, `scd_valid_from`, `scd_valid_to`, `scd_current` and `scd_hash`: no
`scd_version` column is ever written, although the repository's tests expect
stored rows to carry versions 1, 2, … per natural key. -/
theorem insert_writes_no_version_column :
    ((update cfgOrders (construct cfgOrders none) dfOrders).1.table.map
        (fun r => r.map Prod.fst))
      = [["order", "line", "status", "currency", "scd_id", "scd_valid_from",
          "scd_valid_to", "scd_current", "scd_hash"]]
    ∧ ∀ r ∈ (update cfgOrders (construct cfgOrders none) dfOrders).1.table,
        "scd_version" ∉ r.map Prod.fst := by
  decide

/-! Scenario with lookup attribute `k` and one Type-2 attribute `a`. -/

def cfgPair : Config := Config.std ["k"] [] ["a"] 100 200

def storedRow1 : Attrs :=
  [("k", .vInt 1), ("a", .vStr "x"), ("scd_id", .vInt 1),
   ("scd_valid_from", .vInt 100), ("scd_valid_to", .vInt 200),
   ("scd_current", .vBool true),
   ("scd_hash", .vStr "6fe62d0dd7db314b7f9bb945672f078e01d27f0f")]

/-- The stored hash of `storedRow1` is the fingerprint of its attributes. -/
theorem storedRow1_hash_consistent :
    cfgPair.compute_hash storedRow1 = "6fe62d0dd7db314b7f9bb945672f078e01d27f0f" := by
  decide

def sPair : EngineState := construct cfgPair (some [storedRow1])

def rowK1 : Attrs := [("k", .vInt 1), ("a", .vStr "x")]

def rowK2 : Attrs := [("k", .vInt 2), ("a", .vStr "w")]

/-- C8: the claim fails on the code.  `lookup` (lines 162-165) is a stub
whose body is `return None`: even for an input whose natural key matches a
stored current member it returns nothing, although its own docstring says it
reads the newest version of the row. -/
theorem lookup_returns_none_even_for_present_member :
    (∃ r ∈ sPair.table, getAtt r "scd_current" = Value.vBool true
        ∧ keyOf cfgPair r = keyOf cfgPair rowK1)
    ∧ lookup sPair rowK1 = none
    ∧ ∀ (s : EngineState) (q : Attrs), lookup s q = none :=
  ⟨by decide, rfl, fun s q => rfl⟩

/-- C9 counterexample: with `type1atts` empty, `update` inserts the new key
`2` as a current row but never refreshes the in-memory index, so the index
still lacks the key after the call — the claim that the index agrees with
the table for all affected keys is false at this input. -/
theorem new_key_absent_from_index_cex :
    (∃ r ∈ (update cfgPair sPair ⟨[], [rowK1, rowK2]⟩).1.table,
        getAtt r "scd_current" = Value.vBool true ∧ keyOf cfgPair r = [Value.vInt 2])
    ∧ [Value.vInt 2] ∉ (update cfgPair sPair ⟨[], [rowK1, rowK2]⟩).1.currentindex.map Prod.fst := by
  decide

/-- C9 amended: the in-memory current-state index is refreshed only by the
Type-1 pass; when `type1atts` is empty, `update` leaves the index exactly as
it was before the call, so newly inserted keys are absent from it and
Type-2 retirements and inserts are not reflected. -/
theorem index_unchanged_without_type1 (cfg : Config) (s : EngineState) (df : Df)
    (h : cfg.type1atts = []) :
    (update cfg s df).1.currentindex = s.currentindex := by
  unfold update
  split
  · rfl
  · dsimp only
    rw [h]
    repeat' split
    all_goals first
      | rfl
      | simp_all

/-- Witness for `index_unchanged_without_type1` at a concrete engine. -/
theorem index_unchanged_without_type1_witness :
    (update cfgPair sPair ⟨[], [rowK1, rowK2]⟩).1.currentindex = sPair.currentindex :=
  index_unchanged_without_type1 cfgPair sPair ⟨[], [rowK1, rowK2]⟩ rfl


/-! Scenario with lookup attribute `k`, Type-1 attribute `a` and Type-2
attribute `b`. -/

def cfgMixed : Config := Config.std ["k"] ["a"] ["b"] 100 200

def storedMixed : Attrs :=
  [("k", .vInt 1), ("a", .vStr "x"), ("b", .vStr "y"), ("scd_id", .vInt 1),
   ("scd_valid_from", .vInt 100), ("scd_valid_to", .vInt 200),
   ("scd_current", .vBool true),
   ("scd_hash", .vStr "be2fa2f738a63d338c8499f4f255971dc849156f")]

/-- The stored hash of `storedMixed` is the fingerprint of its attributes. -/
theorem storedMixed_hash_consistent :
    cfgMixed.compute_hash storedMixed = "be2fa2f738a63d338c8499f4f255971dc849156f" := by
  decide

def sMixed : EngineState := construct cfgMixed (some [storedMixed])

/-- The incoming row differs from `storedMixed` only in the Type-2
attribute `b` (`y` becomes `z`); the Type-1 attribute `a` is unchanged. -/
def rowT2only : Attrs := [("k", .vInt 1), ("a", .vStr "x"), ("b", .vStr "z")]

/-- C2 counterexample: the code never compares individual attributes.  For a
row that differs only in the Type-2 attribute `b`, `update` runs the Type-1
path (the stored hash is overwritten with the incoming fingerprint) and the
Type-2 path never fires (the table keeps its single row and `b` keeps its
old value `y`), contradicting the claim that such a row takes only the
Type-2 path. -/
theorem t2_only_change_takes_type1_path_cex :
    getAtt rowT2only "b" = Value.vStr "z"
    ∧ getAtt rowT2only "a" = getAtt storedMixed "a"
    ∧ (update cfgMixed sMixed ⟨[], [rowT2only]⟩).1.table.map (fun r => getAtt r "b")
        = [Value.vStr "y"]
    ∧ (update cfgMixed sMixed ⟨[], [rowT2only]⟩).1.table.map (fun r => getAtt r "scd_hash")
        = [Value.vStr "3c9b76903dc79a406cda5a0d0a9b159d87b64715"]
    ∧ cfgMixed.compute_hash rowT2only = "3c9b76903dc79a406cda5a0d0a9b159d87b64715" := by
  decide

/-! Scenario for the Type-1 path over a version chain: two stored versions
of key `1` with different historical values of the Type-2 attribute `b`. -/

def storedC5retired : Attrs :=
  [("k", .vInt 1), ("a", .vStr "x"), ("b", .vStr "y1"), ("scd_id", .vInt 1),
   ("scd_valid_from", .vInt 50), ("scd_valid_to", .vInt 100),
   ("scd_current", .vBool false),
   ("scd_hash", .vStr "46203ed07fb8274f272c6912e6869dc22076c12f")]

def storedC5current : Attrs :=
  [("k", .vInt 1), ("a", .vStr "x"), ("b", .vStr "y2"), ("scd_id", .vInt 2),
   ("scd_valid_from", .vInt 100), ("scd_valid_to", .vInt 200),
   ("scd_current", .vBool true),
   ("scd_hash", .vStr "4457806c98f9fb5a87419330d1d04c48a986fc2c")]

def sC5 : EngineState := construct cfgMixed (some [storedC5retired, storedC5current])

/-- The incoming row changes only the Type-1 attribute `a` (`x` to `x2`). -/
def rowT1change : Attrs := [("k", .vInt 1), ("a", .vStr "x2"), ("b", .vStr "y2")]

/-- C5 counterexample: the Type-1 path overwrites the hash of every stored
version with the fingerprint of the *incoming* row's attribute tuple
(lines 253-254 hash `rowdata`, not each table row), so the retired version
with `b = y1` and the current version with `b = y2` end up with the *same*
digest, while the claim demands the retired row receive the fingerprint of
its own post-overwrite tuple `(1, x2, y1)`, which is a different digest. -/
theorem type1_rewrites_all_version_hashes_cex :
    (update cfgMixed sC5 ⟨[], [rowT1change]⟩).1.table.map (fun r => getAtt r "a")
      = [Value.vStr "x2", Value.vStr "x2"]
    ∧ (update cfgMixed sC5 ⟨[], [rowT1change]⟩).1.table.map (fun r => getAtt r "scd_hash")
        = [Value.vStr "4cff68cdea42d37721c026f1a0ab45546153fd50",
           Value.vStr "4cff68cdea42d37721c026f1a0ab45546153fd50"]
    ∧ cfgMixed.compute_hash [("k", .vInt 1), ("a", .vStr "x2"), ("b", .vStr "y1")]
        = "1d8025924508fa27dfc3acdafea3ea7f6aa2081f"
    ∧ ("4cff68cdea42d37721c026f1a0ab45546153fd50" : String)
        ≠ "1d8025924508fa27dfc3acdafea3ea7f6aa2081f" := by
  decide

/-- C5 amended: during a Type-1 mutation, every stored version (current or
retired) of the affected natural key has its Type-1 columns overwritten with
the incoming values, and its `scd_hash` overwritten with the fingerprint of
the incoming row's attribute tuple — one and the same digest for all
versions — not with a fingerprint recomputed from each row's own
post-overwrite tuple. -/
theorem type1_mutation_uses_incoming_fingerprint (cfg : Config) (s : EngineState)
    (m : Attrs) (hha : cfg.hashatt ∉ cfg.type1atts) :
    ((perform_type1_updates cfg s [m]).table.map (fun r => getAtt r cfg.hashatt)
      = s.table.map (fun r =>
          if keyOf cfg r = keyOf cfg m then Value.vStr (cfg.compute_hash m)
          else getAtt r cfg.hashatt))
    ∧ ∀ att ∈ cfg.type1atts,
        (perform_type1_updates cfg s [m]).table.map (fun r => getAtt r att)
          = s.table.map (fun r =>
              if keyOf cfg r = keyOf cfg m then getAtt m att else getAtt r att) := by
  constructor
  · rw [perform_type1_table, List.map_map]
    refine List.map_congr_left (fun r hr => ?_)
    simp only [Function.comp, List.foldl_cons, List.foldl_nil]
    by_cases h : keyOf cfg r = keyOf cfg m
    · rw [if_pos h, getAtt_applyT1Row_hash_match _ _ _ h]
    · rw [if_neg h]
      unfold applyT1Row
      rw [if_neg h]
  · intro att hatt
    rw [perform_type1_table, List.map_map]
    refine List.map_congr_left (fun r hr => ?_)
    simp only [Function.comp, List.foldl_cons, List.foldl_nil]
    by_cases h : keyOf cfg r = keyOf cfg m
    · rw [if_pos h]
      unfold applyT1Row
      rw [if_pos h, getAtt_setAtt_ne _ _ _ _ (fun he => hha (by rw [← he]; exact hatt)),
        getAtt_foldl_setAtt_mem _ _ _ _ hatt]
    · rw [if_neg h]
      unfold applyT1Row
      rw [if_neg h]

/-- Witness for `type1_mutation_uses_incoming_fingerprint` at the concrete
mixed-attribute configuration. -/
theorem type1_mutation_uses_incoming_fingerprint_witness :
    ((perform_type1_updates cfgMixed sC5 [rowT1change]).table.map
        (fun r => getAtt r cfgMixed.hashatt)
      = sC5.table.map (fun r =>
          if keyOf cfgMixed r = keyOf cfgMixed rowT1change
          then Value.vStr (cfgMixed.compute_hash rowT1change)
          else getAtt r cfgMixed.hashatt))
    ∧ ∀ att ∈ cfgMixed.type1atts,
        (perform_type1_updates cfgMixed sC5 [rowT1change]).table.map (fun r => getAtt r att)
          = sC5.table.map (fun r =>
              if keyOf cfgMixed r = keyOf cfgMixed rowT1change
              then getAtt rowT1change att else getAtt r att) :=
  type1_mutation_uses_incoming_fingerprint cfgMixed sC5 rowT1change (by decide)

/-! ## Claim C10: in-place mutation of the caller's DataFrame -/

theorem fillRow_hasCols (cfg : Config) (id : Int) (a : Attrs) :
    hasCol (fillRow cfg id a) cfg.key = true
    ∧ hasCol (fillRow cfg id a) cfg.fromatt = true
    ∧ hasCol (fillRow cfg id a) cfg.toatt = true
    ∧ hasCol (fillRow cfg id a) cfg.currentatt = true
    ∧ hasCol (fillRow cfg id a) cfg.hashatt = true := by
  unfold fillRow
  dsimp only
  refine ⟨?_, ?_, ?_, ?_, hasCol_setAtt_self _ _ _⟩
  · exact hasCol_setAtt_of _ _ _ _ (hasCol_setAtt_of _ _ _ _ (hasCol_setAtt_of _ _ _ _
      (hasCol_setAtt_of _ _ _ _ (hasCol_setAtt_self _ _ _))))
  · exact hasCol_setAtt_of _ _ _ _ (hasCol_setAtt_of _ _ _ _ (hasCol_setAtt_of _ _ _ _
      (hasCol_setAtt_self _ _ _)))
  · exact hasCol_setAtt_of _ _ _ _ (hasCol_setAtt_of _ _ _ _ (hasCol_setAtt_self _ _ _))
  · exact hasCol_setAtt_of _ _ _ _ (hasCol_setAtt_self _ _ _)

/-- C10: `update` and `insert` mutate the caller's batch in place.  When the
dimension exists, `update` adds the hash column to the passed DataFrame and
replaces its index with the lookup attributes, so the object the caller
holds after the call differs from the one passed in; `insert` adds the
surrogate-key, valid-from, valid-to, current-flag and hash columns to the
rows of the DataFrame object the caller passed in. -/
theorem update_and_insert_mutate_caller_df (cfg : Config) (s : EngineState)
    (df : Df) (rows : List Attrs) (hex2 : s.exists_ = true)
    (hlk : cfg.lookupatts ≠ []) (hic : df.indexCols = []) :
    (update cfg s df).2.indexCols = cfg.lookupatts
    ∧ (∀ r ∈ (update cfg s df).2.rows, hasCol r cfg.hashatt = true)
    ∧ (update cfg s df).2 ≠ df
    ∧ ∀ r ∈ (insert cfg s rows).2,
        hasCol r cfg.key = true ∧ hasCol r cfg.fromatt = true
        ∧ hasCol r cfg.toatt = true ∧ hasCol r cfg.currentatt = true
        ∧ hasCol r cfg.hashatt = true := by
  have hne : ¬(s.exists_ = false) := by rw [hex2]; decide
  refine ⟨?_, ?_, ?_, ?_⟩
  · unfold update
    rw [if_neg hne]
  · unfold update
    rw [if_neg hne]
    intro r hr
    dsimp only at hr
    rcases List.mem_map.1 hr with ⟨a, ha, rfl⟩
    exact hasCol_setAtt_self _ _ _
  · intro heq
    have h1 : (update cfg s df).2.indexCols = cfg.lookupatts := by
      unfold update
      rw [if_neg hne]
    rw [heq, hic] at h1
    exact hlk h1.symm
  · intro r hr
    rw [insert_rows_eq] at hr
    rcases List.mem_map.1 hr with ⟨p, hp, rfl⟩
    exact fillRow_hasCols _ _ _

/-- Witness for `update_and_insert_mutate_caller_df` at a concrete engine. -/
theorem update_and_insert_mutate_caller_df_witness :
    (update cfgPair sPair ⟨[], [rowK2]⟩).2.indexCols = cfgPair.lookupatts
    ∧ (∀ r ∈ (update cfgPair sPair ⟨[], [rowK2]⟩).2.rows, hasCol r cfgPair.hashatt = true)
    ∧ (update cfgPair sPair ⟨[], [rowK2]⟩).2 ≠ (⟨[], [rowK2]⟩ : Df)
    ∧ ∀ r ∈ (insert cfgPair sPair [rowK2]).2,
        hasCol r cfgPair.key = true ∧ hasCol r cfgPair.fromatt = true
        ∧ hasCol r cfgPair.toatt = true ∧ hasCol r cfgPair.currentatt = true
        ∧ hasCol r cfgPair.hashatt = true :=
  update_and_insert_mutate_caller_df cfgPair sPair ⟨[], [rowK2]⟩ [rowK2] rfl
    (by decide) rfl


/-! ## Claim C7: surrogate-key allocation -/

theorem foldl_max_le_init (l : List Int) (a : Int) : a ≤ l.foldl max a := by
  induction l generalizing a with
  | nil => exact le_refl a
  | cons x rest ih => exact le_trans (le_max_left a x) (ih (max a x))

theorem mem_le_foldl_max (l : List Int) (a x : Int) (h : x ∈ l) : x ≤ l.foldl max a := by
  induction l generalizing a with
  | nil => cases h
  | cons y rest ih =>
      rcases List.mem_cons.1 h with h1 | h1
      · subst h1
        exact le_trans (le_max_right a x) (foldl_max_le_init rest (max a x))
      · exact ih (max a y) h1

theorem getAtt_foldl_applyT1 (cfg : Config) (ms : List Attrs) (r : Attrs) (att : String)
    (h1 : att ∉ cfg.type1atts) (hh : att ≠ cfg.hashatt) :
    getAtt (ms.foldl (fun r m => applyT1Row cfg m r) r) att = getAtt r att := by
  induction ms generalizing r with
  | nil => rfl
  | cons m rest ih =>
      rw [List.foldl_cons, ih _, getAtt_applyT1Row_of_ne _ _ _ _ h1 hh]

theorem getAtt_foldl_retire (cfg : Config) (ms : List Attrs) (r : Attrs) (att : String)
    (ht : att ≠ cfg.toatt) (hc : att ≠ cfg.currentatt) :
    getAtt (ms.foldl (fun r m => retireRow cfg m r) r) att = getAtt r att := by
  induction ms generalizing r with
  | nil => rfl
  | cons m rest ih =>
      rw [List.foldl_cons, ih _, getAtt_retireRow_of_ne _ _ _ _ ht hc]

theorem insert_ids (cfg : Config) (s : EngineState) (rows : List Attrs)
    (hf : cfg.fromatt ≠ cfg.key) (ht : cfg.toatt ≠ cfg.key)
    (hc : cfg.currentatt ≠ cfg.key) (hh : cfg.hashatt ≠ cfg.key) :
    (insert cfg s rows).2.map (fun r => getAtt r cfg.key)
      = (List.range rows.length).map
          (fun i : Nat => Value.vInt (s.maxid + 1 + (i : Int))) := by
  rw [insert_rows_eq, List.map_map]
  have h1 : ((fun r => getAtt r cfg.key) ∘ fun p : Nat × Attrs =>
      fillRow cfg (s.maxid + 1 + p.1) p.2)
      = (fun i : Nat => Value.vInt (s.maxid + 1 + (i : Int))) ∘ Prod.fst := by
    funext p
    exact getAtt_fillRow_key _ _ _ hf ht hc hh
  rw [h1, ← List.map_map, List.enum_map_fst]

/-- Relation between two engine states: the second extends the first with
`n` freshly allocated surrogate keys `maxid + 1, …, maxid + n` appended to
the table, the allocator advanced by exactly `n`. -/
def IdsExtended (cfg : Config) (s1 s2 : EngineState) (n : Nat) : Prop :=
  s2.maxid = s1.maxid + n
  ∧ s2.table.map (fun r => getAtt r cfg.key)
      = s1.table.map (fun r => getAtt r cfg.key)
        ++ (List.range n).map (fun i : Nat => Value.vInt (s1.maxid + 1 + (i : Int)))
  ∧ s2.table.length = s1.table.length + n

theorem IdsExtended_of_same (cfg : Config) (s1 s2 : EngineState)
    (hm : s2.maxid = s1.maxid)
    (hmap : s2.table.map (fun r => getAtt r cfg.key)
      = s1.table.map (fun r => getAtt r cfg.key)) : IdsExtended cfg s1 s2 0 := by
  refine ⟨by omega, by simpa using hmap, ?_⟩
  have := congrArg List.length hmap
  simpa using this

theorem IdsExtended_trans (cfg : Config) (s1 s2 s3 : EngineState) (n m : Nat)
    (h12 : IdsExtended cfg s1 s2 n) (h23 : IdsExtended cfg s2 s3 m) :
    IdsExtended cfg s1 s3 (n + m) := by
  obtain ⟨ha1, hb1, hc1⟩ := h12
  obtain ⟨ha2, hb2, hc2⟩ := h23
  refine ⟨by omega, ?_, by omega⟩
  rw [hb2, hb1, ha1, List.append_assoc]
  congr 1
  rw [List.range_add, List.map_append, List.map_map]
  congr 1
  refine List.map_congr_left (fun i hi => ?_)
  simp only [Function.comp]
  congr 1
  push_cast
  ring

theorem insert_IdsExtended (cfg : Config) (s : EngineState) (rows : List Attrs)
    (hf : cfg.fromatt ≠ cfg.key) (ht : cfg.toatt ≠ cfg.key)
    (hc : cfg.currentatt ≠ cfg.key) (hh : cfg.hashatt ≠ cfg.key) :
    IdsExtended cfg s (insert cfg s rows).1 rows.length := by
  refine ⟨insert_maxid _ _ _, ?_, insert_table_length _ _ _⟩
  rw [insert_table, List.map_append, insert_ids _ _ _ hf ht hc hh]

theorem perform_type1_IdsExtended (cfg : Config) (s : EngineState) (modified : List Attrs)
    (hkey : cfg.key ∉ cfg.type1atts) (hkh : cfg.key ≠ cfg.hashatt) :
    IdsExtended cfg s (perform_type1_updates cfg s modified) 0 := by
  refine IdsExtended_of_same _ _ _ (perform_type1_maxid _ _ _) ?_
  rw [perform_type1_table, List.map_map]
  exact List.map_congr_left (fun r hr =>
    getAtt_foldl_applyT1 _ _ _ _ hkey hkh)

theorem track_type2_IdsExtended (cfg : Config) (s : EngineState) (modified : List Attrs)
    (hf : cfg.fromatt ≠ cfg.key) (ht : cfg.toatt ≠ cfg.key)
    (hc : cfg.currentatt ≠ cfg.key) (hh : cfg.hashatt ≠ cfg.key) :
    IdsExtended cfg s (track_type2_history cfg s modified) modified.length := by
  refine ⟨track_type2_maxid _ _ _, ?_, track_type2_table_length _ _ _⟩
  rw [track_type2_table, List.map_append, List.map_map]
  congr 1
  · exact List.map_congr_left (fun r hr =>
      getAtt_foldl_retire _ _ _ _ (Ne.symm ht) (Ne.symm hc))
  · exact insert_ids _ _ _ hf ht hc hh

theorem IdsExtended_ite (cfg : Config) (s : EngineState) {c : Prop} [Decidable c]
    {f g : EngineState} (hyf : ∃ n, IdsExtended cfg s f n)
    (hyg : ∃ n, IdsExtended cfg s g n) :
    ∃ n, IdsExtended cfg s (if c then f else g) n := by
  split
  · exact hyf
  · exact hyg

theorem IdsExtended_exists_trans (cfg : Config) (s1 : EngineState)
    {s2 s3 : EngineState} (h12 : ∃ n, IdsExtended cfg s1 s2 n)
    (h23 : ∃ n, IdsExtended cfg s2 s3 n) : ∃ n, IdsExtended cfg s1 s3 n := by
  obtain ⟨n, hn⟩ := h12
  obtain ⟨m, hm⟩ := h23
  exact ⟨n + m, IdsExtended_trans _ _ _ _ _ _ hn hm⟩

theorem update_IdsExtended (cfg : Config) (s : EngineState) (df : Df)
    (hf : cfg.fromatt ≠ cfg.key) (ht : cfg.toatt ≠ cfg.key)
    (hc : cfg.currentatt ≠ cfg.key) (hh : cfg.hashatt ≠ cfg.key)
    (hkey : cfg.key ∉ cfg.type1atts) :
    ∃ n, IdsExtended cfg s (update cfg s df).1 n := by
  have hkh : cfg.key ≠ cfg.hashatt := Ne.symm hh
  unfold update
  split
  · exact ⟨df.rows.length, insert_IdsExtended _ _ _ hf ht hc hh⟩
  · dsimp only
    refine IdsExtended_ite _ _
      (IdsExtended_ite _ _
        (IdsExtended_ite _ _ ⟨0, IdsExtended_of_same _ _ _ rfl rfl⟩
          ⟨_, insert_IdsExtended _ _ _ hf ht hc hh⟩)
        (IdsExtended_ite _ _
          (IdsExtended_ite _ _ ⟨0, IdsExtended_of_same _ _ _ rfl rfl⟩
            ⟨_, insert_IdsExtended _ _ _ hf ht hc hh⟩)
          (IdsExtended_exists_trans _ _
            (IdsExtended_ite _ _ ⟨0, IdsExtended_of_same _ _ _ rfl rfl⟩
              ⟨_, insert_IdsExtended _ _ _ hf ht hc hh⟩)
            ⟨0, perform_type1_IdsExtended _ _ _ hkey hkh⟩)))
      (IdsExtended_ite _ _
        (IdsExtended_ite _ _
          (IdsExtended_ite _ _ ⟨0, IdsExtended_of_same _ _ _ rfl rfl⟩
            ⟨_, insert_IdsExtended _ _ _ hf ht hc hh⟩)
          (IdsExtended_ite _ _
            (IdsExtended_ite _ _ ⟨0, IdsExtended_of_same _ _ _ rfl rfl⟩
              ⟨_, insert_IdsExtended _ _ _ hf ht hc hh⟩)
            (IdsExtended_exists_trans _ _
              (IdsExtended_ite _ _ ⟨0, IdsExtended_of_same _ _ _ rfl rfl⟩
                ⟨_, insert_IdsExtended _ _ _ hf ht hc hh⟩)
              ⟨0, perform_type1_IdsExtended _ _ _ hkey hkh⟩)))
        (IdsExtended_exists_trans _ _
          (IdsExtended_ite _ _
            (IdsExtended_ite _ _ ⟨0, IdsExtended_of_same _ _ _ rfl rfl⟩
              ⟨_, insert_IdsExtended _ _ _ hf ht hc hh⟩)
            (IdsExtended_ite _ _
              (IdsExtended_ite _ _ ⟨0, IdsExtended_of_same _ _ _ rfl rfl⟩
                ⟨_, insert_IdsExtended _ _ _ hf ht hc hh⟩)
              (IdsExtended_exists_trans _ _
                (IdsExtended_ite _ _ ⟨0, IdsExtended_of_same _ _ _ rfl rfl⟩
                  ⟨_, insert_IdsExtended _ _ _ hf ht hc hh⟩)
                ⟨0, perform_type1_IdsExtended _ _ _ hkey hkh⟩)))
          ⟨_, track_type2_IdsExtended _ _ _ hf ht hc hh⟩))


theorem mem_attributes_of_t1 (cfg : Config) (a : String) (h : a ∈ cfg.type1atts) :
    a ∈ cfg.attributes := by
  simp [Config.attributes, h]

/-- C7: the surrogate-key allocator is seeded at construction from the
persisted maximum `scd_id` (0 when the store holds no dimension) and each
allocation pre-increments and returns, so the first id issued from a fresh
store is `maxid + 1 = 1`; every `update` appends some number `n` of rows
carrying exactly the keys `maxid + 1, …, maxid + n` (strictly greater than
every previously persisted key, which the allocator dominates), and the
allocator grows by exactly the number of rows inserted. -/
theorem surrogate_key_allocation (cfg : Config) (tb : List Attrs) (s : EngineState)
    (df : Df) (hsane : ConfigSane cfg)
    (hdom : ∀ r ∈ s.table, valInt (getAtt r cfg.key) ≤ s.maxid) :
    (construct cfg none).maxid = 0
    ∧ (∀ r ∈ tb, valInt (getAtt r cfg.key) ≤ (construct cfg (some tb)).maxid)
    ∧ ∃ n : Nat, (update cfg s df).1.maxid = s.maxid + (n : Int)
        ∧ (update cfg s df).1.table.map (fun r => getAtt r cfg.key)
            = s.table.map (fun r => getAtt r cfg.key)
              ++ (List.range n).map (fun i : Nat => Value.vInt (s.maxid + 1 + (i : Int)))
        ∧ (update cfg s df).1.table.length = s.table.length + n
        ∧ ∀ r0 ∈ s.table, ∀ i ∈ List.range n,
            valInt (getAtt r0 cfg.key) < s.maxid + 1 + (i : Int) := by
  obtain ⟨hkA, hfA, htA, hcA, hhA, hnd, ht1⟩ := hsane
  simp only [List.nodup_cons, List.mem_cons, List.not_mem_nil, not_or, List.nodup_nil,
    and_true, List.mem_singleton] at hnd
  obtain ⟨⟨hkf, hkt, hkc, hkh, -⟩, -⟩ := hnd
  have hkey : cfg.key ∉ cfg.type1atts := fun hm => hkA (mem_attributes_of_t1 _ _ hm)
  refine ⟨rfl, ?_, ?_⟩
  · intro r hr
    exact mem_le_foldl_max _ _ _ (List.mem_map.2 ⟨r, hr, rfl⟩)
  · obtain ⟨n, hmax, hmap, hlen⟩ := update_IdsExtended cfg s df
      (Ne.symm hkf) (Ne.symm hkt) (Ne.symm hkc) (Ne.symm hkh) hkey
    refine ⟨n, hmax, hmap, hlen, ?_⟩
    intro r0 hr0 i hi
    have h1 : valInt (getAtt r0 cfg.key) ≤ s.maxid := hdom r0 hr0
    have h2 : (0 : Int) ≤ (i : Int) := Int.natCast_nonneg i
    omega

/-- Witness for `surrogate_key_allocation` at a concrete engine. -/
theorem surrogate_key_allocation_witness :
    (construct cfgPair none).maxid = 0
    ∧ (∀ r ∈ [storedRow1], valInt (getAtt r cfgPair.key)
        ≤ (construct cfgPair (some [storedRow1])).maxid)
    ∧ ∃ n : Nat, (update cfgPair sPair ⟨[], [rowK2]⟩).1.maxid = sPair.maxid + (n : Int)
        ∧ (update cfgPair sPair ⟨[], [rowK2]⟩).1.table.map (fun r => getAtt r cfgPair.key)
            = sPair.table.map (fun r => getAtt r cfgPair.key)
              ++ (List.range n).map
                  (fun i : Nat => Value.vInt (sPair.maxid + 1 + (i : Int)))
        ∧ (update cfgPair sPair ⟨[], [rowK2]⟩).1.table.length = sPair.table.length + n
        ∧ ∀ r0 ∈ sPair.table, ∀ i ∈ List.range n,
            valInt (getAtt r0 cfgPair.key) < sPair.maxid + 1 + (i : Int) :=
  surrogate_key_allocation cfgPair [storedRow1] sPair ⟨[], [rowK2]⟩ (by decide) (by decide)



theorem mergeChanged_cons (cfg : Config) (a : Attrs) (rest : List Attrs)
    (idx : List (List Value × Value)) :
    mergeChanged cfg (a :: rest) idx
      = (((idx.filter (fun kh => decide (kh.1 = keyOf cfg a))).map
            (fun kh => (a, kh.2))).filter
          (fun p => !(decide (getAtt p.1 cfg.hashatt = p.2)))).map
            (fun p => projAttrs cfg p.1)
        ++ mergeChanged cfg rest idx := by
  simp [mergeChanged, List.filter_append, List.map_append]

theorem mem_mergeChanged (cfg : Config) (R : List Attrs)
    (idx : List (List Value × Value)) (m : Attrs) :
    m ∈ mergeChanged cfg R idx
      ↔ ∃ a ∈ R, ∃ kh ∈ idx, kh.1 = keyOf cfg a
          ∧ ¬(getAtt a cfg.hashatt = kh.2) ∧ m = projAttrs cfg a := by
  simp only [mergeChanged, List.mem_map, List.mem_filter, List.mem_flatten,
    Bool.not_eq_eq_eq_not, Bool.not_true, decide_eq_false_iff_not, decide_eq_true_iff]
  constructor
  · rintro ⟨p, ⟨⟨l2, ⟨⟨a, ha, rfl⟩, hpin⟩⟩, hne⟩, rfl⟩
    rcases List.mem_map.1 hpin with ⟨kh, hkh, rfl⟩
    rcases List.mem_filter.1 hkh with ⟨hkhidx, hkey⟩
    exact ⟨a, ha, kh, hkhidx, by simpa using hkey, by simpa using hne, rfl⟩
  · rintro ⟨a, ha, kh, hkh, hkey, hne, rfl⟩
    refine ⟨(a, kh.2), ⟨⟨(idx.filter (fun kh => decide (kh.1 = keyOf cfg a))).map
        (fun kh => (a, kh.2)), ⟨a, ha, rfl⟩, ?_⟩, by simpa using hne⟩, rfl⟩
    exact List.mem_map.2 ⟨kh, List.mem_filter.2 ⟨hkh, by simpa using hkey⟩, rfl⟩


theorem mem_get_current_indexes (cfg : Config) (tbl : List Attrs)
    (kh : List Value × Value) :
    kh ∈ get_current_indexes cfg tbl
      ↔ ∃ r ∈ tbl, getAtt r cfg.currentatt = Value.vBool true
          ∧ kh = (keyOf cfg r, getAtt r cfg.hashatt) := by
  simp only [get_current_indexes, List.mem_map, List.mem_filter, beq_iff_eq]
  constructor
  · rintro ⟨r, ⟨hr, hcur⟩, rfl⟩
    exact ⟨r, hr, hcur, rfl⟩
  · rintro ⟨r, hr, hcur, rfl⟩
    exact ⟨r, ⟨hr, hcur⟩, rfl⟩

theorem filter_key_length_le_one (idx : List (List Value × Value))
    (hidx : (idx.map Prod.fst).Nodup) (k : List Value) :
    (idx.filter (fun kh => decide (kh.1 = k))).length ≤ 1 := by
  induction idx with
  | nil => simp
  | cons e rest ih =>
      rw [List.map_cons, List.nodup_cons] at hidx
      by_cases he : e.1 = k
      · rw [List.filter_cons_of_pos (by simpa using he)]
        have hrest : rest.filter (fun kh => decide (kh.1 = k)) = [] := by
          rw [List.filter_eq_nil_iff]
          intro kh hkh hk
          have : kh.1 = k := by simpa using hk
          exact hidx.1 (he ▸ this ▸ List.mem_map.2 ⟨kh, hkh, rfl⟩)
        rw [hrest]
        simp
      · rw [List.filter_cons_of_neg (by simpa using he)]
        exact ih hidx.2

theorem mergeChanged_keys_sublist (cfg : Config) (R : List Attrs)
    (idx : List (List Value × Value)) (hidx : (idx.map Prod.fst).Nodup) :
    ((mergeChanged cfg R idx).map (keyOf cfg)).Sublist (R.map (keyOf cfg)) := by
  induction R with
  | nil => simp [mergeChanged]
  | cons a rest ih =>
      rw [mergeChanged_cons, List.map_append, List.map_cons]
      have hlen : (((idx.filter (fun kh => decide (kh.1 = keyOf cfg a))).map
          (fun kh => (a, kh.2))).filter
            (fun p => !(decide (getAtt p.1 cfg.hashatt = p.2)))).length ≤ 1 := by
        calc (((idx.filter (fun kh => decide (kh.1 = keyOf cfg a))).map
            (fun kh => (a, kh.2))).filter
              (fun p => !(decide (getAtt p.1 cfg.hashatt = p.2)))).length
            ≤ ((idx.filter (fun kh => decide (kh.1 = keyOf cfg a))).map
                (fun kh => (a, kh.2))).length := List.length_filter_le _ _
          _ = (idx.filter (fun kh => decide (kh.1 = keyOf cfg a))).length :=
              List.length_map _ _
          _ ≤ 1 := filter_key_length_le_one _ hidx _
      rcases hb : (((idx.filter (fun kh => decide (kh.1 = keyOf cfg a))).map
          (fun kh => (a, kh.2))).filter
            (fun p => !(decide (getAtt p.1 cfg.hashatt = p.2)))) with _ | ⟨x, xs⟩
      · rw [hb, List.map_nil, List.map_nil, List.nil_append]
        exact ih.cons _
      · rw [hb] at hlen
        have hxs : xs = [] := by
          simp only [List.length_cons] at hlen
          exact List.eq_nil_of_length_eq_zero (by omega)
        subst hxs
        have hxa : x.1 = a := by
          have hxmem : x ∈ (((idx.filter (fun kh => decide (kh.1 = keyOf cfg a))).map
              (fun kh => (a, kh.2))).filter
                (fun p => !(decide (getAtt p.1 cfg.hashatt = p.2)))) := by
            rw [hb]
            exact List.mem_cons_self _ _
          rcases List.mem_filter.1 hxmem with ⟨hxm, -⟩
          rcases List.mem_map.1 hxm with ⟨kh, -, rfl⟩
          rfl
        rw [hb, List.map_cons, List.map_nil, List.map_cons, List.map_nil,
          List.singleton_append]
        have hx : keyOf cfg (projAttrs cfg x.1) = keyOf cfg a := by
          rw [keyOf_projAttrs, hxa]
        rw [hx]
        exact ih.cons₂ _

theorem mergeChanged_keys_nodup (cfg : Config) (R : List Attrs)
    (idx : List (List Value × Value)) (hR : (R.map (keyOf cfg)).Nodup)
    (hidx : (idx.map Prod.fst).Nodup) :
    ((mergeChanged cfg R idx).map (keyOf cfg)).Nodup :=
  (mergeChanged_keys_sublist cfg R idx hidx).nodup hR

theorem mem_mergeChanged_key_in_idx (cfg : Config) (R : List Attrs)
    (idx : List (List Value × Value)) (m : Attrs)
    (hm : m ∈ mergeChanged cfg R idx) : keyOf cfg m ∈ idx.map Prod.fst := by
  rcases (mem_mergeChanged cfg R idx m).1 hm with ⟨a, ha, kh, hkh, hkey, hne, rfl⟩
  rw [keyOf_projAttrs, ← hkey]
  exact List.mem_map.2 ⟨kh, hkh, rfl⟩


theorem keyOf_foldl_applyT1 (cfg : Config) (ms : List Attrs) (r : Attrs)
    (hs1 : ∀ att ∈ cfg.type1atts, att ∉ cfg.lookupatts)
    (hs2 : cfg.hashatt ∉ cfg.lookupatts) :
    keyOf cfg (ms.foldl (fun r m => applyT1Row cfg m r) r) = keyOf cfg r := by
  induction ms generalizing r with
  | nil => rfl
  | cons m rest ih => rw [List.foldl_cons, ih _, keyOf_applyT1Row _ _ _ hs1 hs2]

theorem foldl_applyT1_id (cfg : Config) (ms : List Attrs) (r : Attrs)
    (h : keyOf cfg r ∉ ms.map (keyOf cfg)) :
    ms.foldl (fun r m => applyT1Row cfg m r) r = r := by
  induction ms with
  | nil => rfl
  | cons m rest ih =>
      rw [List.map_cons, List.mem_cons, not_or] at h
      rw [List.foldl_cons]
      unfold applyT1Row
      rw [if_neg h.1]
      exact ih h.2

theorem foldl_applyT1_single (cfg : Config) (ms : List Attrs) (r m : Attrs)
    (hnd : (ms.map (keyOf cfg)).Nodup) (hm : m ∈ ms) (hk : keyOf cfg m = keyOf cfg r)
    (hs1 : ∀ att ∈ cfg.type1atts, att ∉ cfg.lookupatts)
    (hs2 : cfg.hashatt ∉ cfg.lookupatts) :
    ms.foldl (fun r m => applyT1Row cfg m r) r = applyT1Row cfg m r := by
  induction ms generalizing r with
  | nil => cases hm
  | cons m0 rest ih =>
      rw [List.map_cons, List.nodup_cons] at hnd
      rw [List.foldl_cons]
      rcases List.mem_cons.1 hm with h1 | h1
      · subst h1
        apply foldl_applyT1_id
        rw [keyOf_applyT1Row _ _ _ hs1 hs2, ← hk]
        exact hnd.1
      · have hne : ¬(keyOf cfg r = keyOf cfg m0) := by
          intro he
          exact hnd.1 (he ▸ hk ▸ List.mem_map.2 ⟨m, h1, rfl⟩)
        conv in applyT1Row cfg m0 r => rw [applyT1Row, if_neg hne]
        exact ih _ hnd.2 h1 hk


theorem mergeChanged_after_type1_empty (cfg : Config) (R F tbl : List Attrs)
    (hs1 : ∀ att ∈ cfg.type1atts, att ∉ cfg.lookupatts)
    (hs2 : cfg.hashatt ∉ cfg.lookupatts)
    (hs3 : cfg.currentatt ∉ cfg.type1atts)
    (hs4 : cfg.currentatt ≠ cfg.hashatt)
    (hRnodup : (R.map (keyOf cfg)).Nodup)
    (hidxnodup : ((get_current_indexes cfg tbl).map Prod.fst).Nodup)
    (hRhash : ∀ a ∈ R, getAtt a cfg.hashatt = Value.vStr (cfg.compute_hash a))
    (hF : ∀ r ∈ F, ∃ a ∈ R, keyOf cfg a ∉ (get_current_indexes cfg tbl).map Prod.fst
            ∧ keyOf cfg r = keyOf cfg a
            ∧ getAtt r cfg.hashatt = getAtt a cfg.hashatt) :
    mergeChanged cfg R (get_current_indexes cfg ((tbl ++ F).map
      (fun r => (mergeChanged cfg R (get_current_indexes cfg tbl)).foldl
        (fun r m => applyT1Row cfg m r) r))) = [] := by
  set idx := get_current_indexes cfg tbl with hidxdef
  set m1 := mergeChanged cfg R idx with hm1def
  rw [List.eq_nil_iff_forall_not_mem]
  intro m hm
  rw [mem_mergeChanged] at hm
  obtain ⟨a, ha, kh, hkh, hkey, hne, -⟩ := hm
  apply hne
  rw [mem_get_current_indexes] at hkh
  obtain ⟨r2, hr2, hcur2, rfl⟩ := hkh
  simp only at hkey hne ⊢
  rcases List.mem_map.1 hr2 with ⟨r0, hr0, rfl⟩
  have hkeyp : keyOf cfg (m1.foldl (fun r m => applyT1Row cfg m r) r0) = keyOf cfg r0 :=
    keyOf_foldl_applyT1 _ _ _ hs1 hs2
  have hcurp : getAtt (m1.foldl (fun r m => applyT1Row cfg m r) r0) cfg.currentatt
      = getAtt r0 cfg.currentatt :=
    getAtt_foldl_applyT1 _ _ _ _ hs3 hs4
  have hkr0 : keyOf cfg r0 = keyOf cfg a := by rw [← hkeyp]; exact hkey
  have hcur0 : getAtt r0 cfg.currentatt = Value.vBool true := by rw [← hcurp]; exact hcur2
  have hm1nodup : (m1.map (keyOf cfg)).Nodup :=
    mergeChanged_keys_nodup _ _ _ hRnodup hidxnodup
  rcases List.mem_append.1 hr0 with h0 | h0
  · have hentry : (keyOf cfg r0, getAtt r0 cfg.hashatt) ∈ idx := by
      rw [hidxdef, mem_get_current_indexes]
      exact ⟨r0, h0, hcur0, rfl⟩
    by_cases hkm : keyOf cfg r0 ∈ m1.map (keyOf cfg)
    · rcases List.mem_map.1 hkm with ⟨m0, hm0, hkm0⟩
      have hfold : m1.foldl (fun r m => applyT1Row cfg m r) r0 = applyT1Row cfg m0 r0 :=
        foldl_applyT1_single _ _ _ _ hm1nodup hm0 hkm0 hs1 hs2
      rw [hfold, getAtt_applyT1Row_hash_match _ _ _ hkm0.symm]
      rcases (mem_mergeChanged _ _ _ _).1 hm0 with ⟨a2, ha2, kh2, hkh2, hkey2, hne2, rfl⟩
      have ha2a : a2 = a := by
        apply List.inj_on_of_nodup_map hRnodup ha2 ha
        calc keyOf cfg a2 = keyOf cfg (projAttrs cfg a2) := (keyOf_projAttrs _ _).symm
          _ = keyOf cfg r0 := hkm0
          _ = keyOf cfg a := hkr0
      subst ha2a
      rw [compute_hash_projAttrs, hRhash a2 ha2]
    · have hfold : m1.foldl (fun r m => applyT1Row cfg m r) r0 = r0 :=
        foldl_applyT1_id _ _ _ hkm
      rw [hfold]
      by_contra hcon
      apply hkm
      have hproj : projAttrs cfg a ∈ m1 := by
        rw [hm1def, mem_mergeChanged]
        exact ⟨a, ha, (keyOf cfg r0, getAtt r0 cfg.hashatt), hentry, hkr0, hcon, rfl⟩
      exact List.mem_map.2 ⟨projAttrs cfg a, hproj, by rw [keyOf_projAttrs, hkr0]⟩
  · obtain ⟨a2, ha2, hnotin, hkf, hhf⟩ := hF r0 h0
    have hnotm1 : keyOf cfg r0 ∉ m1.map (keyOf cfg) := by
      intro hmem
      rcases List.mem_map.1 hmem with ⟨m0, hm0, hkm0⟩
      have hkin := mem_mergeChanged_key_in_idx _ _ _ _ hm0
      rw [hkm0, hkf] at hkin
      exact hnotin hkin
    have hfold := foldl_applyT1_id cfg m1 r0 hnotm1
    rw [hfold, hhf]
    have ha2a : a2 = a := List.inj_on_of_nodup_map hRnodup ha2 ha (by rw [← hkf, hkr0])
    rw [ha2a]


theorem hF_of_insert (cfg : Config) (s : EngineState) (R : List Attrs)
    (K : List (List Value))
    (hkA : cfg.key ∉ cfg.attributes) (hfA : cfg.fromatt ∉ cfg.attributes)
    (htA : cfg.toatt ∉ cfg.attributes) (hcA : cfg.currentatt ∉ cfg.attributes)
    (hkL : cfg.key ∉ cfg.lookupatts) (hfL : cfg.fromatt ∉ cfg.lookupatts)
    (htL2 : cfg.toatt ∉ cfg.lookupatts) (hcL : cfg.currentatt ∉ cfg.lookupatts)
    (hhL : cfg.hashatt ∉ cfg.lookupatts)
    (hRhash : ∀ a ∈ R, getAtt a cfg.hashatt = Value.vStr (cfg.compute_hash a)) :
    ∀ r ∈ (insert cfg s (R.filter (fun a => !(decide (keyOf cfg a ∈ K))))).2,
      ∃ a ∈ R, keyOf cfg a ∉ K ∧ keyOf cfg r = keyOf cfg a
        ∧ getAtt r cfg.hashatt = getAtt a cfg.hashatt := by
  intro r hr
  rw [insert_rows_eq] at hr
  rcases List.mem_map.1 hr with ⟨⟨i, a⟩, hp, rfl⟩
  have hmem : a ∈ R.filter (fun a => !(decide (keyOf cfg a ∈ K))) := by
    rcases List.mem_enum hp with ⟨hlt, ha⟩
    rw [ha]
    exact List.getElem_mem hlt
  rcases List.mem_filter.1 hmem with ⟨haR, hflt⟩
  have hnotK : keyOf cfg a ∉ K := by simpa using hflt
  refine ⟨a, haR, hnotK, ?_, ?_⟩
  · exact keyOf_fillRow _ _ _ hkL hfL htL2 hcL hhL
  · rw [getAtt_fillRow_hash _ _ _ hkA hfA htA hcA, hRhash a haR]


/-- C2 amended: `update` classifies changed rows by fingerprint only, never
by per-attribute comparison.  For a batch with pairwise-distinct natural keys
against a consistent engine (index loaded from the table, one current row
per key), every existing row whose fingerprint differs takes the Type-1 path
whenever `type1atts` is non-empty — and because that pass rewrites the
stored hashes to the incoming fingerprints and reloads the index, the
Type-2 path then never fires (the table grows only by the new keys); the
Type-2 path runs for every fingerprint-changed row exactly when `type1atts`
is empty (the table grows by the new keys plus one version per changed
row). -/
theorem hash_only_classification (cfg : Config) (s : EngineState) (df : Df)
    (hsane : ConfigSane cfg)
    (hex2 : s.exists_ = true)
    (hcons : s.currentindex = get_current_indexes cfg s.table)
    (hnodup : (df.rows.map (keyOf cfg)).Nodup)
    (hidx : (s.currentindex.map Prod.fst).Nodup) :
    (cfg.type1atts ≠ [] →
      (update cfg s df).1.table.length
        = s.table.length
          + ((df.rows.map (fun a => setAtt a cfg.hashatt (Value.vStr (cfg.compute_hash a)))).filter
              (fun a => !(decide (keyOf cfg a ∈ s.currentindex.map Prod.fst)))).length)
    ∧ (cfg.type1atts = [] → cfg.type2atts ≠ [] →
      (update cfg s df).1.table.length
        = s.table.length
          + ((df.rows.map (fun a => setAtt a cfg.hashatt (Value.vStr (cfg.compute_hash a)))).filter
              (fun a => !(decide (keyOf cfg a ∈ s.currentindex.map Prod.fst)))).length
          + (mergeChanged cfg
              (df.rows.map (fun a => setAtt a cfg.hashatt (Value.vStr (cfg.compute_hash a))))
              s.currentindex).length) := by
  obtain ⟨hkA, hfA, htA, hcA, hhA, hnd, ht1L⟩ := hsane
  simp only [List.nodup_cons, List.mem_cons, List.not_mem_nil, not_or, List.nodup_nil,
    and_true, List.mem_singleton] at hnd
  obtain ⟨⟨hkf, hkt, hkc, hkh, -⟩, ⟨hft, hfc, hfh, -⟩, ⟨htc, hth, -⟩, ⟨hch, -⟩, -⟩ := hnd
  have hhL : cfg.hashatt ∉ cfg.lookupatts := fun h => hhA (by simp [Config.attributes, h])
  have hcL : cfg.currentatt ∉ cfg.lookupatts := fun h => hcA (by simp [Config.attributes, h])
  have hkL : cfg.key ∉ cfg.lookupatts := fun h => hkA (by simp [Config.attributes, h])
  have hfL : cfg.fromatt ∉ cfg.lookupatts := fun h => hfA (by simp [Config.attributes, h])
  have htL2 : cfg.toatt ∉ cfg.lookupatts := fun h => htA (by simp [Config.attributes, h])
  have hcT1 : cfg.currentatt ∉ cfg.type1atts := fun h => hcA (mem_attributes_of_t1 _ _ h)
  have hnex : ¬(s.exists_ = false) := by rw [hex2]; decide
  have hRnodup : ((df.rows.map (fun a => setAtt a cfg.hashatt
      (Value.vStr (cfg.compute_hash a)))).map (keyOf cfg)).Nodup := by
    rw [List.map_map]
    have hco : ((keyOf cfg) ∘ fun a => setAtt a cfg.hashatt (Value.vStr (cfg.compute_hash a)))
        = keyOf cfg := by
      funext a
      exact keyOf_setAtt _ _ _ _ hhL
    rw [hco]
    exact hnodup
  have hRhash : ∀ a ∈ df.rows.map (fun a => setAtt a cfg.hashatt
      (Value.vStr (cfg.compute_hash a))),
      getAtt a cfg.hashatt = Value.vStr (cfg.compute_hash a) := by
    intro a haR
    rcases List.mem_map.1 haR with ⟨a0, ha0, rfl⟩
    rw [getAtt_setAtt_same, compute_hash_setAtt _ _ _ _ hhA]
  unfold update
  rw [if_neg hnex]
  dsimp only
  simp only [apply_ite EngineState.currentindex, insert_keeps_index, ite_self]
  rw [hcons] at hidx ⊢
  set R := df.rows.map (fun a => setAtt a cfg.hashatt (Value.vStr (cfg.compute_hash a)))
    with hRdef
  set idx := get_current_indexes cfg s.table with hidxdef
  set N := R.filter (fun a => !(decide (keyOf cfg a ∈ idx.map Prod.fst))) with hNdef
  set m1 := mergeChanged cfg R idx with hm1def
  constructor
  · intro ht1ne
    have ht1f : cfg.type1atts.isEmpty = false := List.isEmpty_eq_false.2 ht1ne
    rw [ht1f]
    simp only [if_neg (show ¬(false = true) by decide)]
    by_cases hN : N.isEmpty = true
    · have hNnil : N = [] := List.isEmpty_iff.1 hN
      simp only [if_pos hN]
      by_cases hm1e : m1.isEmpty = true
      · simp only [if_pos hm1e]
        simp [ite_self, hNnil]
      · simp only [if_neg hm1e]
        have hm2 : mergeChanged cfg R (perform_type1_updates cfg s m1).currentindex = [] := by
          rw [perform_type1_index, perform_type1_table]
          have h := mergeChanged_after_type1_empty cfg R [] s.table ht1L hhL hcT1 hch
            hRnodup hidx hRhash (by intro r hr; cases hr)
          rw [List.append_nil] at h
          rw [← hidxdef, ← hm1def] at h
          exact h
        rw [hm2]
        simp only [if_pos (show (([] : List Attrs).isEmpty = true) from rfl)]
        simp [ite_self, perform_type1_table_length, hNnil]
    · simp only [if_neg hN]
      by_cases hm1e : m1.isEmpty = true
      · simp only [if_pos hm1e]
        simp [ite_self, insert_table_length]
      · simp only [if_neg hm1e]
        have hm2 : mergeChanged cfg R
            (perform_type1_updates cfg (insert cfg s N).1 m1).currentindex = [] := by
          rw [perform_type1_index, perform_type1_table, insert_table]
          have h := mergeChanged_after_type1_empty cfg R (insert cfg s N).2 s.table
            ht1L hhL hcT1 hch hRnodup hidx hRhash
            (hF_of_insert cfg s R (idx.map Prod.fst) hkA hfA htA hcA hkL hfL htL2 hcL hhL
              hRhash)
          rw [← hidxdef, ← hm1def] at h
          exact h
        rw [hm2]
        simp only [if_pos (show (([] : List Attrs).isEmpty = true) from rfl)]
        simp [ite_self, perform_type1_table_length, insert_table_length]
  · intro ht1 ht2ne
    have ht1t : cfg.type1atts.isEmpty = true := by rw [ht1]; rfl
    have ht2f : cfg.type2atts.isEmpty = false := List.isEmpty_eq_false.2 ht2ne
    simp only [if_pos ht1t]
    rw [ht2f]
    simp only [if_neg (show ¬(false = true) by decide)]
    by_cases hN : N.isEmpty = true
    · have hNnil : N = [] := List.isEmpty_iff.1 hN
      simp only [if_pos hN]
      by_cases hm1e : m1.isEmpty = true
      · have hm1nil : m1 = [] := List.isEmpty_iff.1 hm1e
        simp only [if_pos hm1e]
        simp [hNnil, hm1nil]
      · simp only [if_neg hm1e]
        simp [track_type2_table_length, hNnil]
    · simp only [if_neg hN]
      by_cases hm1e : m1.isEmpty = true
      · have hm1nil : m1 = [] := List.isEmpty_iff.1 hm1e
        simp only [if_pos hm1e]
        simp [insert_table_length, hm1nil]
      · simp only [if_neg hm1e]
        simp [track_type2_table_length, insert_table_length]

/-- Witness for `hash_only_classification` at the concrete mixed
configuration. -/
theorem hash_only_classification_witness :
    (cfgMixed.type1atts ≠ [] →
      (update cfgMixed sMixed ⟨[], [rowT2only]⟩).1.table.length
        = sMixed.table.length
          + (([rowT2only].map (fun a => setAtt a cfgMixed.hashatt
                (Value.vStr (cfgMixed.compute_hash a)))).filter
              (fun a => !(decide (keyOf cfgMixed a
                ∈ sMixed.currentindex.map Prod.fst)))).length)
    ∧ (cfgMixed.type1atts = [] → cfgMixed.type2atts ≠ [] →
      (update cfgMixed sMixed ⟨[], [rowT2only]⟩).1.table.length
        = sMixed.table.length
          + (([rowT2only].map (fun a => setAtt a cfgMixed.hashatt
                (Value.vStr (cfgMixed.compute_hash a)))).filter
              (fun a => !(decide (keyOf cfgMixed a
                ∈ sMixed.currentindex.map Prod.fst)))).length
          + (mergeChanged cfgMixed
              ([rowT2only].map (fun a => setAtt a cfgMixed.hashatt
                (Value.vStr (cfgMixed.compute_hash a))))
              sMixed.currentindex).length) :=
  hash_only_classification cfgMixed sMixed ⟨[], [rowT2only]⟩ (by decide) rfl rfl
    (by decide) (by decide)

end PyScd
